import Mathlib

/-
Verification of the xtask release-automation core against its specification.

Part 1 embeds the version bump engine of src/commands/bump_version.rs:
semver versions are records of u64 numeric fields (modelled as Nat, with
every increment written as the saturating add the source performs) and a
prerelease / build-metadata string (modelled as List Char).  The helper
functions splitOnce, parseU64 and natToChars embed str::split_once,
str::parse::<u64> and decimal formatting; prereleaseNew embeds the
validation performed by semver::Prerelease::new.

Part 2 embeds the publish-order planner.  Its implementation file is not
present in the repository snapshot (lib.rs only re-exports it), so the
planner is modelled from the spec, as noted in its doc comment.
-/

/-- Numeric maximum of Rust's u64, at which all bump arithmetic saturates. -/
def U64MAX : Nat := 2 ^ 64 - 1

/-- Embeds semver::Version: three u64 numeric fields plus the prerelease and
build-metadata strings (modelled as character lists). -/
structure Version where
  major : Nat
  minor : Nat
  patch : Nat
  pre : List Char
  build : List Char
deriving DecidableEq, Repr

/-- Embeds the BumpLevel enum of src/commands/bump_version.rs. -/
inductive BumpLevel where
  | major
  | minor
  | patch
  | preRelease
  | promotePreRelease
  | patchOrPreRelease
deriving DecidableEq, Repr

/-- The two anyhow error messages produced by bump_version; both carry the
offending prerelease string verbatim. -/
inductive BumpError where
  | malformedPrerelease (pre : List Char)
  | unsupportedStage (pre : List Char)
deriving DecidableEq, Repr

/-- The prerelease string embedded in a bump error's message. -/
def BumpError.carried : BumpError → List Char
  | .malformedPrerelease s => s
  | .unsupportedStage s => s

/-- Embeds str::split_once: splits at the first occurrence of sep, returning
none when sep does not occur. -/
def splitOnce (sep : Char) : List Char → Option (List Char × List Char)
  | [] => none
  | c :: rest =>
    if c = sep then some ([], rest)
    else
      match splitOnce sep rest with
      | some (a, b) => some (c :: a, b)
      | none => none

/-- Value of an ASCII digit character. -/
def digitVal (c : Char) : Nat := c.toNat - 48

/-- Embeds str::parse::<u64>: an optional leading plus sign, then one or more
decimal digits, value at most u64::MAX; anything else is a parse error. -/
def parseU64 (s : List Char) : Option Nat :=
  let t :=
    match s with
    | c :: rest => if c = '+' then rest else s
    | [] => s
  if t.isEmpty then none
  else if t.all Char.isDigit then
    let n := t.foldl (fun a c => a * 10 + digitVal c) 0
    if n ≤ U64MAX then some n else none
  else none

/-- The ASCII character of a decimal digit. -/
def digitChar (d : Nat) : Char :=
  if d = 0 then '0'
  else if d = 1 then '1'
  else if d = 2 then '2'
  else if d = 3 then '3'
  else if d = 4 then '4'
  else if d = 5 then '5'
  else if d = 6 then '6'
  else if d = 7 then '7'
  else if d = 8 then '8'
  else '9'

/-- Fuel-driven decimal rendering, least significant digit first, prepending
onto an accumulator. -/
def natToCharsAux : Nat → Nat → List Char → List Char
  | 0, _, acc => acc
  | fuel + 1, n, acc =>
    let acc' := digitChar (n % 10) :: acc
    if n < 10 then acc' else natToCharsAux fuel (n / 10) acc'

/-- Embeds Rust's decimal Display formatting of an unsigned integer. -/
def natToChars (n : Nat) : List Char := natToCharsAux (n + 1) n []

/-- Characters semver allows inside a prerelease identifier. -/
def isIdentChar (c : Char) : Bool := c.isAlphanum || c = '-'

/-- Embeds semver's validity check for a single prerelease identifier:
non-empty, alphanumeric-or-hyphen characters, and a purely numeric
identifier has no leading zero. -/
def validIdent (s : List Char) : Bool :=
  !s.isEmpty && s.all isIdentChar &&
    (!(s.all Char.isDigit) || !(s.headD '0' == '0') || s == ['0'])

/-- Splits a character list at every occurrence of sep. -/
def splitAll (sep : Char) : List Char → List (List Char)
  | [] => [[]]
  | c :: rest =>
    if c = sep then [] :: splitAll sep rest
    else
      match splitAll sep rest with
      | a :: as => (c :: a) :: as
      | [] => [[c]]

/-- Embeds semver::Prerelease validity: empty, or dot-separated valid
identifiers. -/
def validPre (s : List Char) : Bool :=
  s.isEmpty || (splitAll '.' s).all validIdent

/-- Embeds semver::Prerelease::new: returns the string when it is a valid
prerelease, an error otherwise. -/
def prereleaseNew (s : List Char) : Option (List Char) :=
  if validPre s then some s else none

/-- Rank used only to justify termination of bump_version's self-calls. -/
def BumpLevel.rank : BumpLevel → Nat
  | .patchOrPreRelease => 1
  | _ => 0

/-- Embeds bump_version of src/commands/bump_version.rs.  Numeric bumps use
saturating adds; PreRelease splits the prerelease at the first dot, parses
the tail as u64 and re-renders with the incremented number (leaving the
version unchanged if semver::Prerelease::new rejects the rendered string);
PromotePreRelease inspects only the text before the first dot;
PatchOrPreRelease delegates to Patch or PreRelease on the prerelease's
emptiness. -/
def bump_version (level : BumpLevel) (current : Version) : Except BumpError Version :=
  match level with
  | .major =>
    .ok { current with major := min (current.major + 1) U64MAX, minor := 0, patch := 0 }
  | .minor =>
    .ok { current with minor := min (current.minor + 1) U64MAX, patch := 0 }
  | .patch =>
    .ok { current with patch := min (current.patch + 1) U64MAX }
  | .preRelease =>
    match splitOnce '.' current.pre with
    | some (st, numberStr) =>
      match parseU64 numberStr with
      | some number =>
        match prereleaseNew (st ++ '.' :: natToChars (min (number + 1) U64MAX)) with
        | some nextPre => .ok { current with pre := nextPre }
        | none => .ok current
      | none => .error (.malformedPrerelease current.pre)
    | none => .error (.malformedPrerelease current.pre)
  | .promotePreRelease =>
    match splitOnce '.' current.pre with
    | some (st, _) =>
      if st = "alpha".data then .ok { current with pre := "beta.0".data }
      else if st = "beta".data then .ok { current with pre := "rc.0".data }
      else if st = "rc".data then .ok { current with pre := [] }
      else .error (.unsupportedStage current.pre)
    | none => .error (.malformedPrerelease current.pre)
  | .patchOrPreRelease =>
    if current.pre.isEmpty then
      match bump_version .patch current with
      | .ok v => .ok v
      | .error e => .error e
    else
      match bump_version .preRelease current with
      | .ok v => .ok v
      | .error e => .error e
termination_by level.rank
decreasing_by
  all_goals simp [BumpLevel.rank]

/-- splitOnce finds the first occurrence of the separator. -/
lemma splitOnce_append (sep : Char) (a b : List Char) (ha : sep ∉ a) :
    splitOnce sep (a ++ sep :: b) = some (a, b) := by
  induction a with
  | nil => simp [splitOnce]
  | cons c a ih =>
    have hca : c = sep → False := by rintro rfl; exact ha (List.mem_cons_self ..)
    have ha' : sep ∉ a := fun h => ha (List.mem_cons_of_mem _ h)
    simp only [List.cons_append, splitOnce, List.append_eq]
    rw [if_neg hca, ih ha']

/-- A successful splitOnce decomposes its input at the first separator. -/
lemma splitOnce_eq_some {sep : Char} {s a b : List Char}
    (h : splitOnce sep s = some (a, b)) : s = a ++ sep :: b ∧ sep ∉ a := by
  induction s generalizing a with
  | nil => simp [splitOnce] at h
  | cons c rest ih =>
    simp only [splitOnce] at h
    by_cases hc : c = sep
    · rw [if_pos hc] at h
      cases h
      subst hc
      simp
    · rw [if_neg hc] at h
      cases hr : splitOnce sep rest with
      | none => rw [hr] at h; cases h
      | some p =>
        obtain ⟨a', b'⟩ := p
        rw [hr] at h
        cases h
        obtain ⟨h1, h2⟩ := ih hr
        subst h1
        refine ⟨rfl, ?_⟩
        intro hm
        rcases List.mem_cons.mp hm with h | h
        · exact hc h.symm
        · exact h2 h

example :
    bump_version .major ⟨1, 2, 3, [], []⟩ = .ok ⟨2, 0, 0, [], []⟩ := by
  simp only [bump_version]
  rfl

example :
    bump_version .preRelease ⟨1, 2, 3, "alpha.0".data, []⟩ =
      .ok ⟨1, 2, 3, "alpha.1".data, []⟩ := by
  simp only [bump_version]
  rfl

example :
    bump_version .promotePreRelease ⟨1, 2, 3, "alpha.custom".data, []⟩ =
      .ok ⟨1, 2, 3, "beta.0".data, []⟩ := by
  simp only [bump_version]
  rfl

example :
    bump_version .patchOrPreRelease ⟨1, 2, 3, [], []⟩ = .ok ⟨1, 2, 4, [], []⟩ := by
  simp only [bump_version]
  rfl

example :
    bump_version .preRelease ⟨1, 2, 3, "alpha123".data, []⟩ =
      .error (.malformedPrerelease "alpha123".data) := by
  simp only [bump_version]
  rfl

/-- C2 counterexample: at major = u64::MAX the Major bump saturates, so the
result's major is u64::MAX, not u64::MAX + 1 as the claim states. -/
theorem major_at_u64max_stays_u64max :
    bump_version .major ⟨U64MAX, 0, 0, [], []⟩ = .ok ⟨U64MAX, 0, 0, [], []⟩ ∧
      U64MAX ≠ U64MAX + 1 := by
  constructor
  · simp only [bump_version]
    rfl
  · decide

/-- C2 (amended): for every version, bumping with Major returns Ok with
minor 0, patch 0, and major equal to v.major + 1 saturated at u64::MAX. -/
theorem major_bump_result (v : Version) :
    ∃ w, bump_version .major v = .ok w ∧
      w.minor = 0 ∧ w.patch = 0 ∧ w.major = min (v.major + 1) U64MAX := by
  refine ⟨{ v with major := min (v.major + 1) U64MAX, minor := 0, patch := 0 },
    ?_, rfl, rfl, rfl⟩
  simp only [bump_version]

/-- C9: bumping with Major, Minor, or Patch always returns Ok, for every
version including any prerelease or build-metadata content. -/
theorem numeric_bumps_never_fail (v : Version) :
    (∃ w, bump_version .major v = .ok w) ∧
    (∃ w, bump_version .minor v = .ok w) ∧
    (∃ w, bump_version .patch v = .ok w) := by
  refine ⟨⟨{ v with major := min (v.major + 1) U64MAX, minor := 0, patch := 0 }, ?_⟩,
    ⟨{ v with minor := min (v.minor + 1) U64MAX, patch := 0 }, ?_⟩,
    ⟨{ v with patch := min (v.patch + 1) U64MAX }, ?_⟩⟩ <;> simp only [bump_version]

/-- C8 counterexample: at major = u64::MAX with a non-empty prerelease, the
Major bump yields major u64::MAX, not u64::MAX + 1 as the claim's
(v.major+1).0.0 shape states (the prerelease itself is preserved). -/
theorem major_at_u64max_with_pre :
    bump_version .major ⟨U64MAX, 5, 6, "alpha.1".data, []⟩ =
      .ok ⟨U64MAX, 0, 0, "alpha.1".data, []⟩ ∧
    "alpha.1".data ≠ ([] : List Char) ∧ U64MAX ≠ U64MAX + 1 := by
  refine ⟨?_, by decide, by decide⟩
  simp only [bump_version]
  rfl

/-- C8 (amended): on a version with non-empty prerelease, Major returns
min(v.major+1, u64::MAX).0.0 with the prerelease unchanged, and Minor and
Patch likewise leave the prerelease field untouched. -/
theorem numeric_bumps_preserve_prerelease (v : Version) (h : v.pre ≠ []) :
    (∃ w, bump_version .major v = .ok w ∧
      w.major = min (v.major + 1) U64MAX ∧ w.minor = 0 ∧ w.patch = 0 ∧
      w.pre = v.pre) ∧
    (∃ w, bump_version .minor v = .ok w ∧ w.pre = v.pre) ∧
    (∃ w, bump_version .patch v = .ok w ∧ w.pre = v.pre) := by
  refine ⟨⟨{ v with major := min (v.major + 1) U64MAX, minor := 0, patch := 0 },
      ?_, rfl, rfl, rfl, rfl⟩,
    ⟨{ v with minor := min (v.minor + 1) U64MAX, patch := 0 }, ?_, rfl⟩,
    ⟨{ v with patch := min (v.patch + 1) U64MAX }, ?_, rfl⟩⟩ <;>
    simp only [bump_version]

/-- C8 witness: the amended statement instantiated at 1.2.3-alpha.1. -/
theorem numeric_bumps_preserve_prerelease_witness :
    (∃ w, bump_version .major ⟨1, 2, 3, "alpha.1".data, []⟩ = .ok w ∧
      w.major = min (1 + 1) U64MAX ∧ w.minor = 0 ∧ w.patch = 0 ∧
      w.pre = "alpha.1".data) ∧
    (∃ w, bump_version .minor ⟨1, 2, 3, "alpha.1".data, []⟩ = .ok w ∧
      w.pre = "alpha.1".data) ∧
    (∃ w, bump_version .patch ⟨1, 2, 3, "alpha.1".data, []⟩ = .ok w ∧
      w.pre = "alpha.1".data) :=
  numeric_bumps_preserve_prerelease ⟨1, 2, 3, "alpha.1".data, []⟩ (by decide)

/-- C4: PatchOrPreRelease returns exactly the result of Patch when the
prerelease is empty, and exactly the result of PreRelease otherwise. -/
theorem patch_or_prerelease_delegates (v : Version) :
    (v.pre = [] → bump_version .patchOrPreRelease v = bump_version .patch v) ∧
    (v.pre ≠ [] → bump_version .patchOrPreRelease v = bump_version .preRelease v) := by
  constructor
  · intro h
    conv_lhs => rw [bump_version]
    rw [if_pos (by simp [h])]
    cases bump_version .patch v <;> rfl
  · intro h
    conv_lhs => rw [bump_version]
    rw [if_neg (by simp [h])]
    cases bump_version .preRelease v <;> rfl

/-- C4 witness: delegation instantiated at the release version 1.2.3 and at
the prerelease version 1.2.3-alpha.0. -/
theorem patch_or_prerelease_delegates_witness :
    bump_version .patchOrPreRelease ⟨1, 2, 3, [], []⟩ =
      bump_version .patch ⟨1, 2, 3, [], []⟩ ∧
    bump_version .patchOrPreRelease ⟨1, 2, 3, "alpha.0".data, []⟩ =
      bump_version .preRelease ⟨1, 2, 3, "alpha.0".data, []⟩ :=
  ⟨(patch_or_prerelease_delegates ⟨1, 2, 3, [], []⟩).1 rfl,
    (patch_or_prerelease_delegates ⟨1, 2, 3, "alpha.0".data, []⟩).2 (by decide)⟩

/-- C1 counterexample: the prerelease alpha.custom has a non-integer after
the dot, so the claim says PromotePreRelease must fail with a malformed
prerelease error; the code succeeds and returns beta.0. -/
theorem promote_accepts_noninteger_suffix :
    parseU64 "custom".data = none ∧
    bump_version .promotePreRelease ⟨1, 2, 3, "alpha.custom".data, []⟩ =
      .ok ⟨1, 2, 3, "beta.0".data, []⟩ := by
  refine ⟨by decide, ?_⟩
  simp only [bump_version]
  rfl

/-- C1 (amended): on a non-empty prerelease, PromotePreRelease fails with a
malformed-prerelease error carrying the original prerelease when there is no
dot; when there is a dot it looks only at the text before the first dot:
alpha maps to beta.0, beta to rc.0, rc to the empty prerelease, and any
other stage fails with an unsupported-stage error carrying the original
prerelease; the text after the dot is never inspected. -/
theorem promote_characterization (v : Version) (hne : v.pre ≠ []) :
    (splitOnce '.' v.pre = none →
      bump_version .promotePreRelease v = .error (.malformedPrerelease v.pre)) ∧
    (∀ st rest, splitOnce '.' v.pre = some (st, rest) →
      (st = "alpha".data →
        bump_version .promotePreRelease v = .ok { v with pre := "beta.0".data }) ∧
      (st = "beta".data →
        bump_version .promotePreRelease v = .ok { v with pre := "rc.0".data }) ∧
      (st = "rc".data →
        bump_version .promotePreRelease v = .ok { v with pre := [] }) ∧
      (st ≠ "alpha".data → st ≠ "beta".data → st ≠ "rc".data →
        bump_version .promotePreRelease v = .error (.unsupportedStage v.pre))) := by
  constructor
  · intro hs
    simp only [bump_version, hs]
  · intro st rest hs
    refine ⟨?_, ?_, ?_, ?_⟩
    · intro h1
      simp only [bump_version, hs, if_pos h1]
    · intro h1
      simp only [bump_version, hs]
      rw [if_neg (by simp [h1]), if_pos h1]
    · intro h1
      simp only [bump_version, hs]
      rw [if_neg (by simp [h1]), if_neg (by simp [h1]), if_pos h1]
    · intro h1 h2 h3
      simp only [bump_version, hs]
      rw [if_neg h1, if_neg h2, if_neg h3]

/-- C1 witness: the characterization instantiated at 1.2.3-rc.9 (dot present,
stage rc) and at 1.2.3-alpha123 (no dot). -/
theorem promote_characterization_witness :
    bump_version .promotePreRelease ⟨1, 2, 3, "rc.9".data, []⟩ =
      .ok ⟨1, 2, 3, [], []⟩ ∧
    bump_version .promotePreRelease ⟨1, 2, 3, "alpha123".data, []⟩ =
      .error (.malformedPrerelease "alpha123".data) :=
  ⟨((promote_characterization ⟨1, 2, 3, "rc.9".data, []⟩ (by decide)).2
      "rc".data "9".data (by decide)).2.2.1 rfl,
    (promote_characterization ⟨1, 2, 3, "alpha123".data, []⟩ (by decide)).1
      (by decide)⟩

/-- C10: a prerelease of shape alpha.s, beta.s or rc.s for any non-empty
string s (integer or not) makes PromotePreRelease succeed with beta.0, rc.0,
or the empty prerelease respectively: the text after the first dot is never
inspected. -/
theorem promote_ignores_suffix (v : Version) (s : List Char) (hs : s ≠ []) :
    (v.pre = "alpha".data ++ '.' :: s →
      bump_version .promotePreRelease v = .ok { v with pre := "beta.0".data }) ∧
    (v.pre = "beta".data ++ '.' :: s →
      bump_version .promotePreRelease v = .ok { v with pre := "rc.0".data }) ∧
    (v.pre = "rc".data ++ '.' :: s →
      bump_version .promotePreRelease v = .ok { v with pre := [] }) := by
  refine ⟨?_, ?_, ?_⟩
  · intro h
    have hsp := splitOnce_append '.' "alpha".data s (by decide)
    simp only [bump_version, h, hsp]
    simp
  · intro h
    have hsp := splitOnce_append '.' "beta".data s (by decide)
    simp only [bump_version, h, hsp]
    simp
  · intro h
    have hsp := splitOnce_append '.' "rc".data s (by decide)
    simp only [bump_version, h, hsp]
    simp

/-- C10 witness: promotion at 1.2.3-alpha.custom, 1.2.3-beta.custom and
1.2.3-rc.custom. -/
theorem promote_ignores_suffix_witness :
    bump_version .promotePreRelease ⟨1, 2, 3, "alpha.custom".data, []⟩ =
      .ok ⟨1, 2, 3, "beta.0".data, []⟩ ∧
    bump_version .promotePreRelease ⟨1, 2, 3, "beta.custom".data, []⟩ =
      .ok ⟨1, 2, 3, "rc.0".data, []⟩ ∧
    bump_version .promotePreRelease ⟨1, 2, 3, "rc.custom".data, []⟩ =
      .ok ⟨1, 2, 3, [], []⟩ :=
  ⟨(promote_ignores_suffix ⟨1, 2, 3, "alpha.custom".data, []⟩ "custom".data
      (by decide)).1 rfl,
    (promote_ignores_suffix ⟨1, 2, 3, "beta.custom".data, []⟩ "custom".data
      (by decide)).2.1 rfl,
    (promote_ignores_suffix ⟨1, 2, 3, "rc.custom".data, []⟩ "custom".data
      (by decide)).2.2 rfl⟩

lemma digitChar_isDigit (d : Nat) (h : d < 10) : (digitChar d).isDigit = true := by
  interval_cases d <;> decide

lemma digitVal_digitChar (d : Nat) (h : d < 10) : digitVal (digitChar d) = d := by
  interval_cases d <;> decide

lemma digitChar_eq_zero (d : Nat) (h : d < 10) (h0 : digitChar d = '0') : d = 0 := by
  interval_cases d <;> first
  | rfl
  | exact absurd h0 (by decide)

/-- Rendering with an accumulator appends the accumulator. -/
lemma natToCharsAux_acc (fuel : Nat) :
    ∀ n acc, natToCharsAux fuel n acc = natToCharsAux fuel n [] ++ acc := by
  induction fuel with
  | zero => intro n acc; rfl
  | succ fuel ih =>
    intro n acc
    simp only [natToCharsAux]
    by_cases h : n < 10
    · rw [if_pos h, if_pos h]
      rfl
    · rw [if_neg h, if_neg h, ih (n / 10) (digitChar (n % 10) :: acc),
        ih (n / 10) [digitChar (n % 10)]]
      simp

lemma natToCharsAux_ne_nil (fuel n : Nat) (h : 0 < fuel) :
    natToCharsAux fuel n [] ≠ [] := by
  cases fuel with
  | zero => omega
  | succ fuel =>
    simp only [natToCharsAux]
    by_cases hn : n < 10
    · rw [if_pos hn]
      simp
    · rw [if_neg hn, natToCharsAux_acc]
      simp

lemma natToChars_ne_nil (n : Nat) : natToChars n ≠ [] :=
  natToCharsAux_ne_nil (n + 1) n (Nat.succ_pos n)

lemma natToCharsAux_all_digit (fuel : Nat) :
    ∀ n, (natToCharsAux fuel n []).all Char.isDigit = true := by
  induction fuel with
  | zero => intro n; rfl
  | succ fuel ih =>
    intro n
    simp only [natToCharsAux]
    by_cases h : n < 10
    · rw [if_pos h]
      simp [digitChar_isDigit (n % 10) (Nat.mod_lt _ (by norm_num))]
    · rw [if_neg h, natToCharsAux_acc]
      simp [List.all_append, ih (n / 10),
        digitChar_isDigit (n % 10) (Nat.mod_lt _ (by norm_num))]

lemma natToChars_all_digit (n : Nat) : (natToChars n).all Char.isDigit = true :=
  natToCharsAux_all_digit (n + 1) n

/-- A rendered number starting with the zero digit must be zero itself. -/
lemma natToCharsAux_head_zero (fuel : Nat) :
    ∀ n, n < 10 ^ fuel → (natToCharsAux fuel n []).headD '0' = '0' → n = 0 := by
  induction fuel with
  | zero =>
    intro n hn _
    simp only [pow_zero, Nat.lt_one_iff] at hn
    exact hn
  | succ fuel ih =>
    intro n hn hh
    by_cases h : n < 10
    · simp only [natToCharsAux, if_pos h] at hh
      have h0 := digitChar_eq_zero (n % 10) (Nat.mod_lt _ (by norm_num)) (by simpa using hh)
      omega
    · exfalso
      simp only [natToCharsAux, if_neg h] at hh
      rw [natToCharsAux_acc] at hh
      have hf : 0 < fuel := by
        rcases Nat.eq_zero_or_pos fuel with h0 | h0
        · subst h0
          norm_num at hn
          omega
        · exact h0
      have h10 : n / 10 < 10 ^ fuel := by
        rw [Nat.div_lt_iff_lt_mul (by norm_num)]
        calc n < 10 ^ (fuel + 1) := hn
        _ = 10 ^ fuel * 10 := by ring
      obtain ⟨c, rest, hcr⟩ :=
        List.exists_cons_of_ne_nil (natToCharsAux_ne_nil fuel (n / 10) hf)
      rw [hcr] at hh
      simp at hh
      have : n / 10 = 0 := ih (n / 10) h10 (by rw [hcr]; simpa using hh)
      omega

/-- Horner value of the rendered digits. -/
lemma foldl_natToCharsAux (fuel : Nat) :
    ∀ n, n < 10 ^ fuel → ∀ a,
      List.foldl (fun x c => x * 10 + digitVal c) a (natToCharsAux fuel n []) =
        a * 10 ^ (natToCharsAux fuel n []).length + n := by
  induction fuel with
  | zero =>
    intro n hn a
    have : n = 0 := by simpa using hn
    subst this
    simp [natToCharsAux]
  | succ fuel ih =>
    intro n hn a
    simp only [natToCharsAux]
    by_cases h : n < 10
    · rw [if_pos h]
      simp only [List.foldl_cons, List.foldl_nil, List.length_cons, List.length_nil,
        Nat.mod_eq_of_lt h, digitVal_digitChar n h]
      ring
    · rw [if_neg h, natToCharsAux_acc]
      have h10 : n / 10 < 10 ^ fuel := by
        rw [Nat.div_lt_iff_lt_mul (by norm_num)]
        calc n < 10 ^ (fuel + 1) := hn
        _ = 10 ^ fuel * 10 := by ring
      rw [List.foldl_append, ih (n / 10) h10 a]
      simp only [List.foldl_cons, List.foldl_nil, List.length_append,
        List.length_cons, List.length_nil]
      rw [digitVal_digitChar (n % 10) (Nat.mod_lt _ (by norm_num))]
      have hdm : 10 * (n / 10) + n % 10 = n := Nat.div_add_mod n 10
      calc (a * 10 ^ (natToCharsAux fuel (n / 10) []).length + n / 10) * 10 + n % 10
          = a * (10 ^ (natToCharsAux fuel (n / 10) []).length * 10) +
            (10 * (n / 10) + n % 10) := by ring
        _ = a * 10 ^ ((natToCharsAux fuel (n / 10) []).length + (0 + 1)) + n := by
            rw [hdm]; ring

lemma lt_pow_succ (n : Nat) : n < 10 ^ (n + 1) :=
  lt_of_lt_of_le (Nat.lt_pow_self (by norm_num) n)
    (Nat.pow_le_pow_right (by norm_num) (Nat.le_succ n))

lemma isDigit_ne_plus {c : Char} (h : c.isDigit = true) : (c = '+') → False := by
  rintro rfl
  simp at h

lemma not_mem_of_all_digit {c : Char} (hc : c.isDigit = false) {l : List Char}
    (h : l.all Char.isDigit = true) : c ∉ l := by
  intro hm
  have := (List.all_eq_true.mp h) c hm
  rw [hc] at this
  cases this

/-- Parsing inverts rendering for every value a u64 can hold. -/
lemma parseU64_natToChars (n : Nat) (h : n ≤ U64MAX) :
    parseU64 (natToChars n) = some n := by
  obtain ⟨c, rest, hcr⟩ := List.exists_cons_of_ne_nil (natToChars_ne_nil n)
  have hall : (c :: rest).all Char.isDigit = true := hcr ▸ natToChars_all_digit n
  have hcd : c.isDigit = true := by
    have := List.all_eq_true.mp hall c (List.mem_cons_self ..)
    simpa using this
  rw [hcr, parseU64.eq_def]
  simp only [if_neg (isDigit_ne_plus hcd)]
  rw [if_neg (by simp), if_pos hall]
  have hval : List.foldl (fun x c => x * 10 + digitVal c) 0 (natToChars n) = n := by
    have := foldl_natToCharsAux (n + 1) n (lt_pow_succ n) 0
    simpa [natToChars] using this
  rw [hcr] at hval
  rw [hval, if_pos h]

lemma isIdentChar_of_isDigit {c : Char} (h : c.isDigit = true) :
    isIdentChar c = true := by
  simp [isIdentChar, Char.isAlphanum, h]

/-- The rendering of any number is a valid semver prerelease identifier. -/
lemma validIdent_natToChars (n : Nat) : validIdent (natToChars n) = true := by
  have hall : (natToChars n).all Char.isDigit = true := natToChars_all_digit n
  have hident : (natToChars n).all isIdentChar = true := by
    rw [List.all_eq_true] at hall ⊢
    exact fun c hc => isIdentChar_of_isDigit (hall c hc)
  rw [validIdent]
  rw [Bool.and_eq_true, Bool.and_eq_true]
  refine ⟨⟨by simp [natToChars_ne_nil n], hident⟩, ?_⟩
  rw [Bool.or_eq_true, Bool.or_eq_true]
  by_cases hz : (natToChars n).headD '0' = '0'
  · have hn0 : n = 0 := natToCharsAux_head_zero (n + 1) n (lt_pow_succ n) hz
    subst hn0
    right
    rfl
  · left
    right
    simpa using hz

lemma splitAll_ne_nil (sep : Char) (s : List Char) : splitAll sep s ≠ [] := by
  induction s with
  | nil => simp [splitAll]
  | cons c rest ih =>
    simp only [splitAll]
    by_cases h : c = sep
    · rw [if_pos h]
      simp
    · rw [if_neg h]
      cases hr : splitAll sep rest with
      | nil => simp
      | cons a as => simp

/-- splitAll peels off everything before the first separator occurrence. -/
lemma splitAll_append (sep : Char) (a b : List Char) (ha : sep ∉ a) :
    splitAll sep (a ++ sep :: b) = a :: splitAll sep b := by
  induction a with
  | nil => simp [splitAll]
  | cons c a ih =>
    have hca : c = sep → False := by rintro rfl; exact ha (List.mem_cons_self ..)
    have ha' : sep ∉ a := fun h => ha (List.mem_cons_of_mem _ h)
    simp only [List.cons_append, splitAll, List.append_eq]
    rw [if_neg hca, ih ha']

/-- A list without the separator is a single splitAll chunk. -/
lemma splitAll_no_sep (sep : Char) (s : List Char) (hs : sep ∉ s) :
    splitAll sep s = [s] := by
  induction s with
  | nil => rfl
  | cons c rest ih =>
    have hca : c = sep → False := by rintro rfl; exact hs (List.mem_cons_self ..)
    have hs' : sep ∉ rest := fun h => hs (List.mem_cons_of_mem _ h)
    simp only [splitAll]
    rw [if_neg hca, ih hs']

/-- The first identifier of a valid prerelease that contains a dot. -/
lemma validIdent_of_validPre (st ns : List Char) (hdot : '.' ∉ st)
    (hv : validPre (st ++ '.' :: ns) = true) : validIdent st = true := by
  have hne : (st ++ '.' :: ns).isEmpty = false := by cases st <;> rfl
  rw [validPre, hne, Bool.false_or, splitAll_append _ _ _ hdot, List.all_cons,
    Bool.and_eq_true] at hv
  exact hv.1

/-- A valid identifier before a dot followed by a rendered number is a valid
prerelease. -/
lemma validPre_render (st : List Char) (n : Nat) (hdot : '.' ∉ st)
    (hid : validIdent st = true) :
    validPre (st ++ '.' :: natToChars n) = true := by
  have hne : (st ++ '.' :: natToChars n).isEmpty = false := by cases st <;> rfl
  rw [validPre, hne, Bool.false_or, splitAll_append _ _ _ hdot,
    splitAll_no_sep _ _ (not_mem_of_all_digit (by decide) (natToChars_all_digit n))]
  simp [hid, validIdent_natToChars]

/-- On a valid prerelease that splits as stage dot number, the PreRelease
bump rewrites the prerelease to the stage followed by the saturated successor
of the number. -/
lemma bump_preRelease_ok (v : Version) (st ns : List Char) (n : Nat)
    (hv : validPre v.pre = true) (hsp : splitOnce '.' v.pre = some (st, ns))
    (hp : parseU64 ns = some n) :
    bump_version .preRelease v =
      .ok { v with pre := st ++ '.' :: natToChars (min (n + 1) U64MAX) } := by
  obtain ⟨hpre, hdot⟩ := splitOnce_eq_some hsp
  have hid : validIdent st = true := validIdent_of_validPre st ns hdot (hpre ▸ hv)
  have hrv : validPre (st ++ '.' :: natToChars (min (n + 1) U64MAX)) = true :=
    validPre_render st _ hdot hid
  simp only [bump_version, hsp, hp, prereleaseNew, if_pos hrv]

/-- C3 counterexample: at prerelease number u64::MAX the increment saturates,
so a.18446744073709551615 bumps to itself rather than to the claimed
stage.(number+1); and a number one past u64::MAX is all digits (so it matches
stage.integer as the claim reads) yet the bump fails. -/
theorem prerelease_bump_at_u64max :
    bump_version .preRelease ⟨1, 2, 3, "a.18446744073709551615".data, []⟩ =
      .ok ⟨1, 2, 3, "a.18446744073709551615".data, []⟩ ∧
    parseU64 "18446744073709551615".data = some U64MAX ∧
    ("a".data ++ '.' :: natToChars (U64MAX + 1)) ≠ "a.18446744073709551615".data ∧
    bump_version .preRelease ⟨1, 2, 3, "a.18446744073709551616".data, []⟩ =
      .error (.malformedPrerelease "a.18446744073709551616".data) ∧
    ("18446744073709551616".data).all Char.isDigit = true := by
  refine ⟨?_, by decide, by decide, ?_, by decide⟩
  · simp only [bump_version]
    rfl
  · simp only [bump_version]
    rfl

/-- C3 (amended): on a valid semver prerelease, the PreRelease bump succeeds
exactly when the prerelease splits at a dot and the text after the first dot
parses as a u64, returning the version with prerelease stage.(number+1
saturated at u64::MAX) and all other fields unchanged; it fails with a
malformed-prerelease error carrying the original prerelease string exactly
when there is no dot (including the empty prerelease) or the text after the
first dot does not parse as a u64. -/
theorem prerelease_bump_characterization (v : Version)
    (hv : validPre v.pre = true) :
    (∀ st ns n, splitOnce '.' v.pre = some (st, ns) → parseU64 ns = some n →
      bump_version .preRelease v =
        .ok { v with pre := st ++ '.' :: natToChars (min (n + 1) U64MAX) }) ∧
    (∀ st ns, splitOnce '.' v.pre = some (st, ns) → parseU64 ns = none →
      bump_version .preRelease v = .error (.malformedPrerelease v.pre)) ∧
    (splitOnce '.' v.pre = none →
      bump_version .preRelease v = .error (.malformedPrerelease v.pre)) := by
  refine ⟨?_, ?_, ?_⟩
  · intro st ns n hsp hp
    exact bump_preRelease_ok v st ns n hv hsp hp
  · intro st ns hsp hp
    simp only [bump_version, hsp, hp]
  · intro hsp
    simp only [bump_version, hsp]

/-- C3 witness: the characterization instantiated at 1.2.3-alpha.0 (success),
1.2.3-alpha.custom (unparseable number) and 1.2.3-alpha123 (no dot). -/
theorem prerelease_bump_characterization_witness :
    bump_version .preRelease ⟨1, 2, 3, "alpha.0".data, []⟩ =
      .ok { (⟨1, 2, 3, "alpha.0".data, []⟩ : Version) with
        pre := "alpha".data ++ '.' :: natToChars (min (0 + 1) U64MAX) } ∧
    bump_version .preRelease ⟨1, 2, 3, "alpha.custom".data, []⟩ =
      .error (.malformedPrerelease "alpha.custom".data) ∧
    bump_version .preRelease ⟨1, 2, 3, "alpha123".data, []⟩ =
      .error (.malformedPrerelease "alpha123".data) :=
  ⟨(prerelease_bump_characterization ⟨1, 2, 3, "alpha.0".data, []⟩ (by decide)).1
      "alpha".data "0".data 0 (by decide) (by decide),
    (prerelease_bump_characterization ⟨1, 2, 3, "alpha.custom".data, []⟩
        (by decide)).2.1 "alpha".data "custom".data (by decide) (by decide),
    (prerelease_bump_characterization ⟨1, 2, 3, "alpha123".data, []⟩
        (by decide)).2.2 (by decide)⟩

/-- C7: every arithmetic increment of the bump engine saturates at u64::MAX:
a version whose major, minor, patch, or prerelease number sits at the maximum
bumps to the maximum again. -/
theorem bump_increments_saturate (v : Version) :
    (v.major = U64MAX →
      bump_version .major v =
        .ok { v with major := U64MAX, minor := 0, patch := 0 }) ∧
    (v.minor = U64MAX →
      bump_version .minor v = .ok { v with minor := U64MAX, patch := 0 }) ∧
    (v.patch = U64MAX →
      bump_version .patch v = .ok { v with patch := U64MAX }) ∧
    (∀ st ns, validPre v.pre = true → splitOnce '.' v.pre = some (st, ns) →
      parseU64 ns = some U64MAX →
      bump_version .preRelease v =
        .ok { v with pre := st ++ '.' :: natToChars U64MAX }) := by
  have hmin : min (U64MAX + 1) U64MAX = U64MAX := min_eq_right (Nat.le_succ _)
  refine ⟨?_, ?_, ?_, ?_⟩
  · intro h
    simp only [bump_version, h, hmin]
  · intro h
    simp only [bump_version, h, hmin]
  · intro h
    simp only [bump_version, h, hmin]
  · intro st ns hv hsp hp
    have hb := bump_preRelease_ok v st ns U64MAX hv hsp hp
    rwa [hmin] at hb

/-- C7 witness: saturation instantiated at u64::MAX in each position. -/
theorem bump_increments_saturate_witness :
    bump_version .major ⟨U64MAX, 1, 2, [], []⟩ =
      .ok { (⟨U64MAX, 1, 2, [], []⟩ : Version) with
        major := U64MAX, minor := 0, patch := 0 } ∧
    bump_version .minor ⟨0, U64MAX, 2, [], []⟩ =
      .ok { (⟨0, U64MAX, 2, [], []⟩ : Version) with minor := U64MAX, patch := 0 } ∧
    bump_version .patch ⟨0, 1, U64MAX, [], []⟩ =
      .ok { (⟨0, 1, U64MAX, [], []⟩ : Version) with patch := U64MAX } ∧
    bump_version .preRelease ⟨0, 0, 0, "a.18446744073709551615".data, []⟩ =
      .ok { (⟨0, 0, 0, "a.18446744073709551615".data, []⟩ : Version) with
        pre := "a".data ++ '.' :: natToChars U64MAX } :=
  ⟨(bump_increments_saturate ⟨U64MAX, 1, 2, [], []⟩).1 rfl,
    (bump_increments_saturate ⟨0, U64MAX, 2, [], []⟩).2.1 rfl,
    (bump_increments_saturate ⟨0, 1, U64MAX, [], []⟩).2.2.1 rfl,
    (bump_increments_saturate ⟨0, 0, 0, "a.18446744073709551615".data, []⟩).2.2.2
      "a".data "18446744073709551615".data (by decide) (by decide) (by decide)⟩

/-- Modelled from the spec: the planner implementation file
(commands/publish.rs, re-exported by lib.rs) is absent from the snapshot, so
PackageNode is taken from the spec's data model: an opaque unique id plus the
set of in-workspace dependency ids (name and path are irrelevant to the
planning algorithm). -/
structure Pkg where
  id : Nat
  deps : List Nat
deriving DecidableEq, Repr

/-- Identifiers of all packages in the graph. -/
def pkgIds (pkgs : List Pkg) : List Nat := pkgs.map Pkg.id

/-- Boolean membership of an id in a list of ids. -/
def memN (i : Nat) (l : List Nat) : Bool := l.any (fun j => j == i)

/-- Whether an id names a package of the graph. -/
def inGraph (pkgs : List Pkg) (d : Nat) : Bool := pkgs.any (fun q => q.id == d)

/-- Modelled from the spec: a package is ready when every in-workspace
dependency has already been placed; dependencies outside the graph never
block leveling. -/
def ready (pkgs : List Pkg) (placed : List Nat) (p : Pkg) : Bool :=
  p.deps.all (fun d => !inGraph pkgs d || memN d placed)

/-- The next frontier: all not-yet-placed packages whose unresolved
in-workspace dependency count has reached zero. -/
def nextFrontier (pkgs : List Pkg) (placed : List Nat) : List Nat :=
  (pkgs.filter (fun p => !memN p.id placed && ready pkgs placed p)).map Pkg.id

/-- Modelled from the spec: the Kahn-style layered loop; each round places
the current frontier as the next level until no new frontier is produced.
Fuel bounds the rounds; pkgs.length rounds always suffice since every
non-final round places at least one package. -/
def planLoop : Nat → List Pkg → List Nat → List (List Nat) →
    List (List Nat) × List Nat
  | 0, _, placed, levels => (levels, placed)
  | fuel + 1, pkgs, placed, levels =>
    let f := nextFrontier pkgs placed
    if f.isEmpty then (levels, placed)
    else planLoop fuel pkgs (placed ++ f) (levels ++ [f])

/-- The planner's error: the dependency graph is not acyclic. -/
inductive PlanError where
  | dependencyCycle (remaining : List Nat)
deriving DecidableEq, Repr

/-- Modelled from the spec: plan_publish_order levels the graph and, when
fewer packages were placed than the graph contains, fails with
DependencyCycle carrying the ids not placed into any level. -/
def plan_publish_order (pkgs : List Pkg) : Except PlanError (List (List Nat)) :=
  let r := planLoop pkgs.length pkgs [] []
  if r.2.length = pkgs.length then .ok r.1
  else .error (.dependencyCycle ((pkgIds pkgs).filter (fun i => !memN i r.2)))

/-- A non-empty set of package ids of the graph, each of which has a
dependency inside the set: the standard finite-graph characterization of
containing a directed cycle. -/
def cycleWitness (pkgs : List Pkg) (S : List Nat) : Prop :=
  S ≠ [] ∧ (∀ i ∈ S, ∃ p ∈ pkgs, p.id = i) ∧
    (∀ p ∈ pkgs, p.id ∈ S → ∃ d ∈ p.deps, d ∈ S)

/-- The in-workspace dependency graph contains a cycle. -/
def hasCycle (pkgs : List Pkg) : Prop := ∃ S, cycleWitness pkgs S

example :
    plan_publish_order [⟨0, []⟩, ⟨1, [0]⟩, ⟨2, [0]⟩, ⟨3, [1, 2]⟩] =
      .ok [[0], [1, 2], [3]] := rfl

example :
    plan_publish_order [⟨0, [1]⟩, ⟨1, [0]⟩] =
      .error (.dependencyCycle [0, 1]) := rfl

example :
    plan_publish_order [⟨0, [7, 9]⟩] = .ok [[0]] := rfl

lemma memN_iff (i : Nat) (l : List Nat) : memN i l = true ↔ i ∈ l := by
  simp only [memN, List.any_eq_true, beq_iff_eq]
  constructor
  · rintro ⟨j, hj, rfl⟩
    exact hj
  · intro h
    exact ⟨i, h, rfl⟩

lemma memN_false_iff (i : Nat) (l : List Nat) : memN i l = false ↔ i ∉ l := by
  constructor
  · intro h hm
    rw [(memN_iff i l).mpr hm] at h
    cases h
  · intro h
    by_cases hb : memN i l = true
    · exact absurd ((memN_iff i l).mp hb) h
    · simpa using hb

lemma inGraph_iff (pkgs : List Pkg) (d : Nat) :
    inGraph pkgs d = true ↔ d ∈ pkgIds pkgs := by
  simp only [inGraph, pkgIds, List.any_eq_true, beq_iff_eq, List.mem_map]

lemma ready_iff (pkgs : List Pkg) (placed : List Nat) (p : Pkg) :
    ready pkgs placed p = true ↔
      ∀ d ∈ p.deps, inGraph pkgs d = true → d ∈ placed := by
  simp only [ready, List.all_eq_true, Bool.or_eq_true, Bool.not_eq_true',
    memN_iff]
  refine forall_congr' fun d => forall_congr' fun _ => ?_
  constructor
  · rintro (h | h)
    · intro hg
      rw [hg] at h
      cases h
    · exact fun _ => h
  · intro h
    by_cases hg : inGraph pkgs d = true
    · exact Or.inr (h hg)
    · exact Or.inl (by simpa using hg)

lemma ready_false_iff (pkgs : List Pkg) (placed : List Nat) (p : Pkg) :
    ready pkgs placed p = false ↔
      ∃ d ∈ p.deps, inGraph pkgs d = true ∧ d ∉ placed := by
  rw [← Bool.not_eq_true, ready_iff]
  push_neg
  constructor
  · rintro ⟨d, hd, hg, hnp⟩
    exact ⟨d, hd, hg, hnp⟩
  · rintro ⟨d, hd, hg, hnp⟩
    exact ⟨d, hd, hg, hnp⟩

lemma mem_nextFrontier (pkgs : List Pkg) (placed : List Nat) (i : Nat) :
    i ∈ nextFrontier pkgs placed ↔
      ∃ p ∈ pkgs, p.id = i ∧ i ∉ placed ∧ ready pkgs placed p = true := by
  simp only [nextFrontier, List.mem_map, List.mem_filter, Bool.and_eq_true,
    Bool.not_eq_true', memN_false_iff]
  constructor
  · rintro ⟨p, ⟨hp, hnp, hr⟩, rfl⟩
    exact ⟨p, hp, rfl, hnp, hr⟩
  · rintro ⟨p, hp, rfl, hnp, hr⟩
    exact ⟨p, ⟨hp, hnp, hr⟩, rfl⟩

lemma nextFrontier_nodup (pkgs : List Pkg) (placed : List Nat)
    (hids : (pkgIds pkgs).Nodup) : (nextFrontier pkgs placed).Nodup :=
  hids.sublist ((List.filter_sublist pkgs).map Pkg.id)

lemma nextFrontier_subset (pkgs : List Pkg) (placed : List Nat) {i : Nat}
    (h : i ∈ nextFrontier pkgs placed) : i ∈ pkgIds pkgs := by
  obtain ⟨p, hp, rfl, _, _⟩ := (mem_nextFrontier pkgs placed i).mp h
  exact List.mem_map_of_mem _ hp

lemma mem_getD_flatten {levels : List (List Nat)} {d : Nat} {L : Nat}
    (h : d ∈ levels.getD L []) : d ∈ levels.flatten := by
  by_cases hL : L < levels.length
  · rw [List.getD_eq_getElem _ _ hL] at h
    exact List.mem_flatten.mpr ⟨levels[L], List.getElem_mem hL, h⟩
  · rw [List.getD_eq_default _ _ (Nat.le_of_not_lt hL)] at h
    cases h

lemma flatten_mem_getD {levels : List (List Nat)} {d : Nat}
    (h : d ∈ levels.flatten) : ∃ L, L < levels.length ∧ d ∈ levels.getD L [] := by
  obtain ⟨l, hl, hd⟩ := List.mem_flatten.mp h
  obtain ⟨L, hL, rfl⟩ := List.mem_iff_getElem.mp hl
  exact ⟨L, hL, by rw [List.getD_eq_getElem _ _ hL]; exact hd⟩

lemma nodup_length_le {l m : List Nat} (hd : l.Nodup) (hs : ∀ x ∈ l, x ∈ m) :
    l.length ≤ m.length :=
  (hd.subperm hs).length_le

/-- Loop invariant of planLoop: the produced levels flatten to the placed
list, placed ids are distinct ids of the graph, every leveled package's
in-graph dependencies sit in strictly earlier levels, the loop only appends
new levels, and on exit either every package was placed or every unplaced
package still has an unplaced in-graph dependency. -/
lemma planLoop_invariant (fuel : Nat) :
    ∀ (pkgs : List Pkg) (placed : List Nat) (levels : List (List Nat)),
      (pkgIds pkgs).Nodup →
      levels.flatten = placed →
      placed.Nodup →
      (∀ i ∈ placed, i ∈ pkgIds pkgs) →
      (∀ L p, p ∈ pkgs → p.id ∈ levels.getD L [] →
        ∀ d ∈ p.deps, inGraph pkgs d = true →
          ∃ L2, L2 < L ∧ d ∈ levels.getD L2 []) →
      pkgs.length ≤ placed.length + fuel →
      ((planLoop fuel pkgs placed levels).1.flatten =
          (planLoop fuel pkgs placed levels).2 ∧
        (planLoop fuel pkgs placed levels).2.Nodup ∧
        (∀ i ∈ (planLoop fuel pkgs placed levels).2, i ∈ pkgIds pkgs) ∧
        (∀ L p, p ∈ pkgs →
          p.id ∈ (planLoop fuel pkgs placed levels).1.getD L [] →
          ∀ d ∈ p.deps, inGraph pkgs d = true →
            ∃ L2, L2 < L ∧
              d ∈ (planLoop fuel pkgs placed levels).1.getD L2 []) ∧
        (∃ tail, (planLoop fuel pkgs placed levels).1 = levels ++ tail) ∧
        ((planLoop fuel pkgs placed levels).2.length = pkgs.length ∨
          ∀ p ∈ pkgs, p.id ∉ (planLoop fuel pkgs placed levels).2 →
            ∃ d ∈ p.deps, inGraph pkgs d = true ∧
              d ∉ (planLoop fuel pkgs placed levels).2)) := by
  induction fuel with
  | zero =>
    intro pkgs placed levels hids hflat hnd hsub hlev hcount
    refine ⟨hflat, hnd, hsub, hlev, ⟨[], by simp [planLoop]⟩, Or.inl ?_⟩
    have h1 : placed.length ≤ (pkgIds pkgs).length := nodup_length_le hnd hsub
    have h2 : (pkgIds pkgs).length = pkgs.length := List.length_map _ _
    simp only [planLoop]
    omega
  | succ fuel ih =>
    intro pkgs placed levels hids hflat hnd hsub hlev hcount
    by_cases hf : (nextFrontier pkgs placed).isEmpty = true
    · have hres : planLoop (fuel + 1) pkgs placed levels = (levels, placed) := by
        simp [planLoop, hf]
      rw [hres]
      refine ⟨hflat, hnd, hsub, hlev, ⟨[], by simp⟩, Or.inr ?_⟩
      intro p hp hnp
      have hfr : p.id ∉ nextFrontier pkgs placed := by
        rw [List.isEmpty_iff] at hf
        rw [hf]
        simp
      rw [mem_nextFrontier] at hfr
      push_neg at hfr
      have h2 := hfr p hp rfl hnp
      have h3 : ready pkgs placed p = false := by simpa using h2
      exact (ready_false_iff pkgs placed p).mp h3
    · have hfne : nextFrontier pkgs placed ≠ [] := by
        simpa [List.isEmpty_iff] using hf
      have hres : planLoop (fuel + 1) pkgs placed levels =
          planLoop fuel pkgs (placed ++ nextFrontier pkgs placed)
            (levels ++ [nextFrontier pkgs placed]) := by
        simp [planLoop, hf]
      have hflat' : (levels ++ [nextFrontier pkgs placed]).flatten =
          placed ++ nextFrontier pkgs placed := by
        rw [List.flatten_append, hflat]
        simp
      have hnd' : (placed ++ nextFrontier pkgs placed).Nodup := by
        rw [List.nodup_append]
        refine ⟨hnd, nextFrontier_nodup pkgs placed hids, ?_⟩
        intro a ha haf
        obtain ⟨p, hp, rfl, hnp, _⟩ :=
          (mem_nextFrontier pkgs placed a).mp haf
        exact hnp ha
      have hsub' : ∀ i ∈ placed ++ nextFrontier pkgs placed, i ∈ pkgIds pkgs := by
        intro i hi
        rcases List.mem_append.mp hi with h | h
        · exact hsub i h
        · exact nextFrontier_subset pkgs placed h
      have hlev' : ∀ L p, p ∈ pkgs →
          p.id ∈ (levels ++ [nextFrontier pkgs placed]).getD L [] →
          ∀ d ∈ p.deps, inGraph pkgs d = true →
            ∃ L2, L2 < L ∧
              d ∈ (levels ++ [nextFrontier pkgs placed]).getD L2 [] := by
        intro L p hp hpL d hd hg
        by_cases hL : L < levels.length
        · rw [List.getD_append _ _ _ _ hL] at hpL
          obtain ⟨L2, hL2, hdL2⟩ := hlev L p hp hpL d hd hg
          refine ⟨L2, hL2, ?_⟩
          rw [List.getD_append _ _ _ _ (lt_trans hL2 hL)]
          exact hdL2
        · by_cases hL' : L = levels.length
          · subst hL'
            rw [List.getD_append_right _ _ _ _ (le_refl _), Nat.sub_self] at hpL
            have hpf : p.id ∈ nextFrontier pkgs placed := hpL
            obtain ⟨q, hq, hqid, hnp2, hr⟩ :=
              (mem_nextFrontier pkgs placed p.id).mp hpf
            have hqp : q = p := List.inj_on_of_nodup_map hids hq hp hqid
            subst hqp
            have hdep := (ready_iff pkgs placed q).mp hr d hd hg
            rw [← hflat] at hdep
            obtain ⟨L2, hL2, hdL2⟩ := flatten_mem_getD hdep
            refine ⟨L2, hL2, ?_⟩
            rw [List.getD_append _ _ _ _ hL2]
            exact hdL2
          · have hnil : (levels ++ [nextFrontier pkgs placed]).getD L [] = [] := by
              apply List.getD_eq_default
              rw [List.length_append]
              simp only [List.length_cons, List.length_nil]
              omega
            rw [hnil] at hpL
            cases hpL
      have hcount' : pkgs.length ≤
          (placed ++ nextFrontier pkgs placed).length + fuel := by
        have hfl : 1 ≤ (nextFrontier pkgs placed).length := by
          cases hc : nextFrontier pkgs placed with
          | nil => exact absurd hc hfne
          | cons a as => simp
        rw [List.length_append]
        omega
      have IH := ih pkgs (placed ++ nextFrontier pkgs placed)
        (levels ++ [nextFrontier pkgs placed]) hids hflat' hnd' hsub' hlev' hcount'
      rw [hres]
      obtain ⟨i1, i2, i3, i4, ⟨tail, i5⟩, i6⟩ := IH
      exact ⟨i1, i2, i3, i4, ⟨[nextFrontier pkgs placed] ++ tail,
        by rw [i5, List.append_assoc]⟩, i6⟩

/-- A leveled plan covering the graph rules out a cycle: walking a cycle set
downward through the strictly decreasing level ranks is impossible. -/
lemma no_cycle_of_leveled (pkgs : List Pkg) (levels : List (List Nat))
    (hlev : ∀ L p, p ∈ pkgs → p.id ∈ levels.getD L [] →
      ∀ d ∈ p.deps, inGraph pkgs d = true →
        ∃ L2, L2 < L ∧ d ∈ levels.getD L2 [])
    (hcov : ∀ i, i ∈ pkgIds pkgs → i ∈ levels.flatten)
    (hc : hasCycle pkgs) : False := by
  obtain ⟨S, hSne, hSids, hSdep⟩ := hc
  have key : ∀ L i, i ∈ S → i ∈ levels.getD L [] → False := by
    intro L
    induction L using Nat.strong_induction_on with
    | _ L ih =>
      intro i hiS hiL
      obtain ⟨p, hp, rfl⟩ := hSids i hiS
      obtain ⟨d, hd, hdS⟩ := hSdep p hp hiS
      have hdg : inGraph pkgs d = true := by
        rw [inGraph_iff]
        obtain ⟨q, hq, rfl⟩ := hSids d hdS
        exact List.mem_map_of_mem _ hq
      obtain ⟨L2, hL2, hdL2⟩ := hlev L p hp hiL d hd hdg
      exact ih L2 hL2 d hdS hdL2
  obtain ⟨i, hiS⟩ := List.exists_mem_of_ne_nil S hSne
  have hiid : i ∈ pkgIds pkgs := by
    obtain ⟨p, hp, rfl⟩ := hSids i hiS
    exact List.mem_map_of_mem _ hp
  obtain ⟨L, _, hiL⟩ := flatten_mem_getD (hcov i hiid)
  exact key L i hiS hiL

/-- A successful plan on a non-empty graph starts with the frontier of
packages that are ready with nothing placed. -/
lemma plan_result_head (pkgs : List Pkg) (hids : (pkgIds pkgs).Nodup)
    (hne : pkgs ≠ [])
    (hcomplete : (planLoop pkgs.length pkgs [] []).2.length = pkgs.length) :
    ∃ tail, (planLoop pkgs.length pkgs [] []).1 =
      nextFrontier pkgs [] :: tail := by
  cases hlen : pkgs.length with
  | zero =>
    exact absurd (List.length_eq_zero.mp hlen) hne
  | succ n =>
    rw [hlen] at hcomplete
    by_cases hf : (nextFrontier pkgs []).isEmpty = true
    · exfalso
      have hres : planLoop (n + 1) pkgs [] [] = ([], []) := by
        simp [planLoop, hf]
      rw [hres] at hcomplete
      simp at hcomplete
    · have hfne : nextFrontier pkgs [] ≠ [] := by
        simpa [List.isEmpty_iff] using hf
      have hres : planLoop (n + 1) pkgs [] [] =
          planLoop n pkgs ([] ++ nextFrontier pkgs [])
            ([] ++ [nextFrontier pkgs []]) := by
        simp [planLoop, hf]
      rw [hres]
      have hinner := planLoop_invariant n pkgs ([] ++ nextFrontier pkgs [])
        ([] ++ [nextFrontier pkgs []]) hids (by simp) (by
          simpa using nextFrontier_nodup pkgs [] hids)
        (by
          intro i hi
          simp only [List.nil_append] at hi
          exact nextFrontier_subset pkgs [] hi)
        (by
          intro L p hp hpL d hd hg
          simp only [List.nil_append] at hpL
          by_cases hL : L = 0
          · subst hL
            have hpf : p.id ∈ nextFrontier pkgs [] := by
              simpa using hpL
            obtain ⟨q, hq, hqid, _, hr⟩ :=
              (mem_nextFrontier pkgs [] p.id).mp hpf
            have hqp : q = p := List.inj_on_of_nodup_map hids hq hp hqid
            subst hqp
            have := (ready_iff pkgs [] q).mp hr d hd hg
            cases this
          · have hnil : ([nextFrontier pkgs []] : List (List Nat)).getD L [] = [] := by
              apply List.getD_eq_default
              simp only [List.length_cons, List.length_nil]
              omega
            rw [hnil] at hpL
            cases hpL)
        (by
          have hfl : 1 ≤ (nextFrontier pkgs []).length := by
            cases hc : nextFrontier pkgs [] with
            | nil => exact absurd hc hfne
            | cons a as => simp
          simp only [List.nil_append, List.length_append]
          omega)
      obtain ⟨_, _, _, _, ⟨tail, htail⟩, _⟩ := hinner
      refine ⟨tail, ?_⟩
      rw [htail]
      simp

/-- C5: when the planner succeeds, every in-graph dependency of a package in
level L appears in a strictly earlier level, level 0 contains exactly the
packages with no in-graph dependencies, and the levels partition the package
set (all ids covered, none twice). -/
theorem publish_plan_invariants (pkgs : List Pkg) (levels : List (List Nat))
    (hids : (pkgIds pkgs).Nodup)
    (hok : plan_publish_order pkgs = .ok levels) :
    (∀ L p, p ∈ pkgs → p.id ∈ levels.getD L [] →
      ∀ d ∈ p.deps, inGraph pkgs d = true →
        ∃ L2, L2 < L ∧ d ∈ levels.getD L2 []) ∧
    (∀ p ∈ pkgs, (p.id ∈ levels.getD 0 [] ↔
      p.deps.all (fun d => !inGraph pkgs d) = true)) ∧
    levels.flatten.Nodup ∧
    (∀ i, i ∈ levels.flatten ↔ i ∈ pkgIds pkgs) := by
  have hinv := planLoop_invariant pkgs.length pkgs [] [] hids rfl List.nodup_nil
    (fun i hi => absurd hi (List.not_mem_nil i))
    (by
      intro L p hp hpL
      rw [List.getD_eq_default _ _ (Nat.zero_le L)] at hpL
      cases hpL)
    (by simp)
  obtain ⟨i1, i2, i3, i4, _, _⟩ := hinv
  by_cases hlen : (planLoop pkgs.length pkgs [] []).2.length = pkgs.length
  case neg =>
    exfalso
    simp only [plan_publish_order] at hok
    rw [if_neg hlen] at hok
    cases hok
  simp only [plan_publish_order] at hok
  rw [if_pos hlen] at hok
  have hlv : (planLoop pkgs.length pkgs [] []).1 = levels := by
    injection hok
  subst hlv
  refine ⟨i4, ?_, ?_, ?_⟩
  · rcases eq_or_ne pkgs [] with rfl | hne
    · intro p hp
      cases hp
    · obtain ⟨tail, htail⟩ := plan_result_head pkgs hids hne hlen
      intro p hp
      have hgd : (nextFrontier pkgs [] :: tail).getD 0 [] =
        nextFrontier pkgs [] := rfl
      rw [htail, hgd]
      constructor
      · intro hpf
        obtain ⟨q, hq, hqid, _, hr⟩ := (mem_nextFrontier pkgs [] p.id).mp hpf
        have hqp : q = p := List.inj_on_of_nodup_map hids hq hp hqid
        subst hqp
        rw [List.all_eq_true]
        intro d hd
        rw [Bool.not_eq_true']
        rcases Bool.eq_false_or_eq_true (inGraph pkgs d) with hg | hg
        · exact absurd ((ready_iff pkgs [] q).mp hr d hd hg) (List.not_mem_nil d)
        · exact hg
      · intro hall
        rw [mem_nextFrontier]
        refine ⟨p, hp, rfl, List.not_mem_nil _, ?_⟩
        rw [ready_iff]
        intro d hd hdg
        rw [List.all_eq_true] at hall
        have h5 := hall d hd
        rw [Bool.not_eq_true'] at h5
        rw [hdg] at h5
        cases h5
  · rw [i1]
    exact i2
  · intro i
    rw [i1]
    have hsp := i2.subperm i3
    have hplen : (pkgIds pkgs).length ≤
        (planLoop pkgs.length pkgs [] []).2.length := by
      rw [hlen, pkgIds, List.length_map]
    exact (hsp.perm_of_length_le hplen).mem_iff

/-- Spec example graph: A has no dependencies, B and C depend on A, D on B
and C. -/
def pubExample : List Pkg := [⟨0, []⟩, ⟨1, [0]⟩, ⟨2, [0]⟩, ⟨3, [1, 2]⟩]

/-- C5 witness: the invariants instantiated at the spec's four-package
example, whose plan is the levels 0, then 1 and 2, then 3. -/
theorem publish_plan_invariants_witness :
    (∀ L p, p ∈ pubExample →
      p.id ∈ ([[0], [1, 2], [3]] : List (List Nat)).getD L [] →
      ∀ d ∈ p.deps, inGraph pubExample d = true →
        ∃ L2, L2 < L ∧ d ∈ ([[0], [1, 2], [3]] : List (List Nat)).getD L2 []) ∧
    (∀ p ∈ pubExample,
      (p.id ∈ ([[0], [1, 2], [3]] : List (List Nat)).getD 0 [] ↔
        p.deps.all (fun d => !inGraph pubExample d) = true)) ∧
    ([[0], [1, 2], [3]] : List (List Nat)).flatten.Nodup ∧
    (∀ i, i ∈ ([[0], [1, 2], [3]] : List (List Nat)).flatten ↔
      i ∈ pkgIds pubExample) :=
  publish_plan_invariants pubExample [[0], [1, 2], [3]] (by decide) rfl

/-- C6: a cyclic dependency graph makes the planner fail with a
DependencyCycle error carrying the ids not placed into any level: a
non-empty subset of the graph's ids, each member of which keeps an in-graph
dependency inside the set, and no plan is returned. -/
theorem publish_plan_cycle_error (pkgs : List Pkg)
    (hids : (pkgIds pkgs).Nodup) (hc : hasCycle pkgs) :
    ∃ rem, plan_publish_order pkgs = .error (.dependencyCycle rem) ∧
      rem ≠ [] ∧ (∀ i ∈ rem, i ∈ pkgIds pkgs) ∧
      (∀ p ∈ pkgs, p.id ∈ rem →
        ∃ d ∈ p.deps, inGraph pkgs d = true ∧ d ∈ rem) ∧
      (∀ levels, plan_publish_order pkgs ≠ .ok levels) := by
  have hinv := planLoop_invariant pkgs.length pkgs [] [] hids rfl List.nodup_nil
    (fun i hi => absurd hi (List.not_mem_nil i))
    (by
      intro L p hp hpL
      rw [List.getD_eq_default _ _ (Nat.zero_le L)] at hpL
      cases hpL)
    (by simp)
  obtain ⟨i1, i2, i3, i4, _, i6⟩ := hinv
  have hlen : (planLoop pkgs.length pkgs [] []).2.length ≠ pkgs.length := by
    intro hlen
    have hsp := i2.subperm i3
    have hplen : (pkgIds pkgs).length ≤
        (planLoop pkgs.length pkgs [] []).2.length := by
      rw [hlen, pkgIds, List.length_map]
    have hperm := hsp.perm_of_length_le hplen
    refine no_cycle_of_leveled pkgs (planLoop pkgs.length pkgs [] []).1 i4 ?_ hc
    intro i hi
    rw [i1]
    exact hperm.mem_iff.mpr hi
  have hplan : plan_publish_order pkgs =
      .error (.dependencyCycle ((pkgIds pkgs).filter
        (fun i => !memN i (planLoop pkgs.length pkgs [] []).2))) := by
    simp only [plan_publish_order]
    rw [if_neg hlen]
  refine ⟨_, hplan, ?_, ?_, ?_, ?_⟩
  · rw [Ne, List.filter_eq_nil_iff]
    intro hremnil
    have hsub2 : ∀ i ∈ pkgIds pkgs, i ∈ (planLoop pkgs.length pkgs [] []).2 := by
      intro i hi
      have h3 := hremnil i hi
      rcases Bool.eq_false_or_eq_true (memN i (planLoop pkgs.length pkgs [] []).2)
        with hmb | hmb
      · exact (memN_iff _ _).mp hmb
      · exact absurd (by rw [hmb]; rfl) h3
    have h4 := nodup_length_le hids hsub2
    have h5 := nodup_length_le i2 i3
    rw [pkgIds, List.length_map] at h4 h5
    omega
  · intro i hi
    exact (List.mem_filter.mp hi).1
  · intro p hp hpr
    have h2 := (List.mem_filter.mp hpr).2
    rw [Bool.not_eq_true'] at h2
    have hpnotin : p.id ∉ (planLoop pkgs.length pkgs [] []).2 :=
      (memN_false_iff _ _).mp h2
    rcases i6 with h | h
    · exact absurd h hlen
    · obtain ⟨d, hd, hdg, hdn⟩ := h p hp hpnotin
      refine ⟨d, hd, hdg, ?_⟩
      rw [List.mem_filter]
      refine ⟨(inGraph_iff pkgs d).mp hdg, ?_⟩
      rw [Bool.not_eq_true']
      exact (memN_false_iff _ _).mpr hdn
  · intro levels hcon
    rw [hplan] at hcon
    cases hcon

/-- Spec example cycle: X and Y depend on each other. -/
def cycExample : List Pkg := [⟨0, [1]⟩, ⟨1, [0]⟩]

/-- C6 witness: the cycle theorem instantiated at the two-package cycle. -/
theorem publish_plan_cycle_error_witness :
    ∃ rem, plan_publish_order cycExample = .error (.dependencyCycle rem) ∧
      rem ≠ [] ∧ (∀ i ∈ rem, i ∈ pkgIds cycExample) ∧
      (∀ p ∈ cycExample, p.id ∈ rem →
        ∃ d ∈ p.deps, inGraph cycExample d = true ∧ d ∈ rem) ∧
      (∀ levels, plan_publish_order cycExample ≠ .ok levels) :=
  publish_plan_cycle_error cycExample (by decide)
    ⟨[0, 1], by decide, by decide, by decide⟩
